import Mathlib

/-!
# Verification of the `rpn-evals` postfix/prefix expression evaluators

Shallow embedding of `src/eval_rpn.py` and `src/eval_prefix.py`.

Modelling conventions:

* Python numbers (`int` and the IEEE `float`s produced by `float(...)` and by the
  arithmetic operators) are embedded as exact rationals `ℚ`.  Every concrete literal
  exercised by the repository's tests and by the claims below is a decimal/scientific
  literal whose value, and whose results under `+ - * / // %` and integral `^`, are
  exactly representable, so on those inputs the rational semantics and CPython's
  int/float semantics coincide.  The one operator the exact-rational embedding cannot
  model faithfully is `^`: CPython's float `**` can produce an inexact float, a
  complex number (negative float base, non-integer exponent), or an *uncaught*
  `OverflowError` (float base, huge result — e.g. `2.0 ** 2000`), all of which
  `opPow` collapses into a value.  No theorem below therefore relies on the outcome
  of applying `^`: the cross-strategy agreement theorem (C2) assumes a `^`-free
  token stream, and the unknown-operator analysis (C10) uses only that `^` never
  yields the unknown-operator kind, which is true of CPython as well.
* Python exceptions are embedded as a typed error (`EvalErr`), following the spec's
  error taxonomy (kinds, not exception class names).  An exception that escapes the
  evaluator uncaught — i.e. a crash, such as the `TypeError` raised by
  `reversed(<generator>)` or by applying an arithmetic operator to a non-number, or a
  raw `KeyError` from an operator lookup outside a `try` that catches it — is embedded
  as the distinguished kind `EvalErr.uncaught`.
* Both Python files build their token stream as a *generator*, so tokenization errors
  surface only when the consumer forces the corresponding element.  The stream is
  embedded as `List (Except EvalErr Token)`: each whitespace-separated word is paired
  with the result of classifying it, and the evaluators propagate an error element
  exactly when they reach (or, via `list(...)`, force) it.
* `str.split()` splits on runs of ASCII whitespace and discards empty pieces; the
  (unexercised) Unicode whitespace cases, the underscore digit separators accepted by
  `int()`/`float()`, and the `inf`/`nan` spellings accepted by `float()` are outside
  the embedding.
-/

namespace RpnEval

/-- The spec's error taxonomy (section 7).  `invalidSymbol w` is the tokenizer's
`ValueError("Invalid symbol '<w>' found.")`; `invalidExpression` covers the
`IndexError`/`ValueError("Invalid expression.")` structural failures;
`unknownOperator` is the defensive `KeyError("Invalid operator.")` /
`ValueError("Invalid operator seen.")`; `divisionByZero` is
`ZeroDivisionError` (re-raised in `eval_prefix.py` as
`ValueError("Can not divide by zero.")` — same kind, different class);
`uncaught` marks an exception no handler catches, i.e. a crash. -/
inductive EvalErr where
  | invalidSymbol (tok : String)
  | invalidExpression
  | unknownOperator
  | divisionByZero
  | uncaught
deriving DecidableEq

/-- A classified token: a numeric literal or an operator symbol.  The Python code
has no dedicated token type — numbers and strings flow through the same lists —
so the evaluators below are defined on arbitrary `Token` lists, numbers and
operator strings alike, exactly as the Python stacks may hold either. -/
inductive Token where
  | num (q : ℚ)
  | op (s : String)
deriving DecidableEq

instance {ε α : Type} [DecidableEq ε] [DecidableEq α] : DecidableEq (Except ε α) := fun
  | .ok a, .ok b =>
    match decEq a b with
    | isTrue h => isTrue (by rw [h])
    | isFalse h => isFalse (fun hh => h (Except.ok.inj hh))
  | .error a, .error b =>
    match decEq a b with
    | isTrue h => isTrue (by rw [h])
    | isFalse h => isFalse (fun hh => h (Except.error.inj hh))
  | .ok _, .error _ => isFalse (fun hh => Except.noConfusion hh)
  | .error _, .ok _ => isFalse (fun hh => Except.noConfusion hh)

/-!
Mathlib's `Rat.add`, `Rat.sub`, `Rat.mul`, `Rat.inv` are `@[irreducible]`, which
would block kernel evaluation of the evaluators on concrete inputs.  The
embedding therefore computes with the reducible smart constructors `mkRat` and
`Rat.divInt`; the lemmas `qAdd_eq`, `qSub_eq`, `qMul_eq`, `qDiv_eq`,
`qNpow_eq`, `qZpow_eq` certify that these wrappers are exactly the field
operations of `ℚ`.
-/

/-- Rational addition, computably: `a + b` (see `qAdd_eq`). -/
def qAdd (a b : ℚ) : ℚ := mkRat (a.num * b.den + b.num * a.den) (a.den * b.den)

/-- Rational subtraction, computably: `a - b` (see `qSub_eq`). -/
def qSub (a b : ℚ) : ℚ := mkRat (a.num * b.den - b.num * a.den) (a.den * b.den)

/-- Rational multiplication, computably: `a * b` (see `qMul_eq`). -/
def qMul (a b : ℚ) : ℚ := mkRat (a.num * b.num) (a.den * b.den)

/-- Rational division, computably: `a / b` (see `qDiv_eq`). -/
def qDiv (a b : ℚ) : ℚ := Rat.divInt (a.num * b.den) (a.den * b.num)

/-- Rational natural power, computably: `a ^ n` (see `qNpow_eq`). -/
def qNpow (a : ℚ) (n : ℕ) : ℚ := mkRat (a.num ^ n) (a.den ^ n)

/-- Rational integer power, computably: `a ^ e` (see `qZpow_eq`). -/
def qZpow (a : ℚ) : ℤ → ℚ
  | .ofNat n => qNpow a n
  | .negSucc n => Rat.divInt (a.den ^ (n + 1)) (a.num ^ (n + 1))

/-- Python `operator.add`. -/
def opAdd (a b : ℚ) : Except EvalErr ℚ := .ok (qAdd a b)

/-- Python `operator.sub`. -/
def opSub (a b : ℚ) : Except EvalErr ℚ := .ok (qSub a b)

/-- Python `operator.mul`. -/
def opMul (a b : ℚ) : Except EvalErr ℚ := .ok (qMul a b)

/-- Python `operator.truediv`: raises `ZeroDivisionError` when the divisor is zero. -/
def opDiv (a b : ℚ) : Except EvalErr ℚ :=
  if b = 0 then .error .divisionByZero else .ok (qDiv a b)

/-- Python `operator.floordiv`: `a // b = ⌊a / b⌋`, `ZeroDivisionError` on zero divisor
(`Rat.floor` is the floor function of `ℚ`, see `opFloorDiv_eq`). -/
def opFloorDiv (a b : ℚ) : Except EvalErr ℚ :=
  if b = 0 then .error .divisionByZero else .ok (Rat.ofInt (Rat.floor (qDiv a b)))

/-- Python `operator.mod`: Python's `a % b = a - b * ⌊a / b⌋`, `ZeroDivisionError` on
zero divisor. -/
def opMod (a b : ℚ) : Except EvalErr ℚ :=
  if b = 0 then .error .divisionByZero
  else .ok (qSub a (qMul b (Rat.ofInt (Rat.floor (qDiv a b)))))

/-- Python `operator.pow`.  For an integer exponent on an `int` base this is exact:
`a ** n`, with `ZeroDivisionError` on `0 ** n` for negative `n` (Python raises it
for both `int` and `float` zero bases).  The float cases have no exact rational
counterpart: CPython's float `**` can return an inexact float, a complex number
(negative base, non-integer exponent), or raise an *uncaught* `OverflowError` when
the result overflows (e.g. `2.0 ** 2000` — the embedding cannot even see the
float-ness of the base, `"2.0"` and `"2"` both tokenize to the rational `2`).  The
embedding collapses all of these into a value (the exact power for an integer
exponent, the fixed value `0` otherwise; `ZeroDivisionError` for `0 ** negative`).
Because of this collapse, no theorem below constrains the outcome of applying `^`:
the C2 agreement theorem assumes a `^`-free token stream, and the C10 analysis uses
only `opPow_no_unknown`, which holds of CPython as well. -/
def opPow (a b : ℚ) : Except EvalErr ℚ :=
  if b.den = 1 then
    if 0 ≤ b.num then .ok (qNpow a b.num.toNat)
    else if a = 0 then .error .divisionByZero
    else .ok (qZpow a b.num)
  else if a = 0 ∧ b < 0 then .error .divisionByZero
  else .ok 0

/-- Python `operator.lt`; Python's `True`/`False` arithmetic as `1`/`0`. -/
def opLt (a b : ℚ) : Except EvalErr ℚ := .ok (if a < b then 1 else 0)

/-- Python `operator.le`. -/
def opLe (a b : ℚ) : Except EvalErr ℚ := .ok (if a ≤ b then 1 else 0)

/-- Python `operator.gt`. -/
def opGt (a b : ℚ) : Except EvalErr ℚ := .ok (if b < a then 1 else 0)

/-- Python `operator.ge`. -/
def opGe (a b : ℚ) : Except EvalErr ℚ := .ok (if b ≤ a then 1 else 0)

/-- Python `operator.eq`. -/
def opEq (a b : ℚ) : Except EvalErr ℚ := .ok (if a = b then 1 else 0)

/-- Python `operator.ne`. -/
def opNe (a b : ℚ) : Except EvalErr ℚ := .ok (if a = b then 0 else 1)

/-- The `OPCODES` dict (identical in both files), embedded as its lookup
function: `OPCODES s = some f` iff `s in OPCODES` with `OPCODES[s] = f`. -/
def OPCODES : String → Option (ℚ → ℚ → Except EvalErr ℚ)
  | "+" => some opAdd
  | "-" => some opSub
  | "*" => some opMul
  | "/" => some opDiv
  | "//" => some opFloorDiv
  | "%" => some opMod
  | "^" => some opPow
  | "<" => some opLt
  | "<=" => some opLe
  | ">" => some opGt
  | ">=" => some opGe
  | "==" => some opEq
  | "!=" => some opNe
  | _ => none

/-- The ASCII whitespace characters `str.split()` splits on. -/
def pyIsSpace (c : Char) : Bool :=
  c == ' ' || c == '\t' || c == '\n' || c == '\r' || c == '\x0b' || c == '\x0c'

/-- Worker for `splitWords`: accumulates the current word (reversed). -/
def splitWordsAux : List Char → List Char → List String
  | [], [] => []
  | [], acc => [String.mk acc.reverse]
  | c :: cs, acc =>
    if pyIsSpace c then
      match acc with
      | [] => splitWordsAux cs []
      | _ => String.mk acc.reverse :: splitWordsAux cs []
    else splitWordsAux cs (c :: acc)

/-- Python `expr.split()`: split on runs of whitespace, no empty pieces. -/
def splitWords (s : String) : List String :=
  splitWordsAux s.toList []

/-- Decimal digit value, `none` for a non-digit. -/
def digitVal (c : Char) : Option Nat :=
  if '0' ≤ c ∧ c ≤ '9' then some (c.toNat - '0'.toNat) else none

/-- Accumulating digit-string parser. -/
def parseDigitsAux : List Char → Nat → Option Nat
  | [], acc => some acc
  | c :: cs, acc =>
    match digitVal c with
    | some d => parseDigitsAux cs (acc * 10 + d)
    | none => none

/-- Parse a nonempty all-digit string. -/
def parseDigits : List Char → Option Nat
  | [] => none
  | cs => parseDigitsAux cs 0

/-- Optional sign followed by a nonempty digit string. -/
def parseSignedDigits : List Char → Option Int
  | '+' :: cs => (parseDigits cs).map (fun n => (n : ℤ))
  | '-' :: cs => (parseDigits cs).map (fun n => -(n : ℤ))
  | cs => (parseDigits cs).map (fun n => (n : ℤ))

/-- Python `int(w)`: optional sign and a nonempty run of decimal digits. -/
def parseIntQ (w : String) : Option ℤ :=
  parseSignedDigits w.toList

/-- Split a character list at the first character satisfying `p`; the second
component is `none` when no such character occurs. -/
def splitOnChar (p : Char → Bool) : List Char → List Char × Option (List Char)
  | [] => ([], none)
  | c :: cs =>
    if p c then ([], some cs)
    else
      let r := splitOnChar p cs
      (c :: r.1, r.2)

/-- Unsigned float mantissa: `digits`, `digits.digits`, `digits.` or `.digits`. -/
def parseUnsignedMantissa (cs : List Char) : Option ℚ :=
  match splitOnChar (fun c => c == '.') cs with
  | (intp, none) => (parseDigits intp).map (fun n => (n : ℚ))
  | (intp, some fracp) =>
    match intp, fracp with
    | [], [] => none
    | _, _ =>
      match (if intp.isEmpty then some 0 else parseDigits intp),
            (if fracp.isEmpty then some 0 else parseDigits fracp) with
      | some i, some f =>
        some (qAdd (Rat.ofInt i) (qDiv (Rat.ofInt f) (qNpow 10 fracp.length)))
      | _, _ => none

/-- Signed float mantissa. -/
def parseSignedMantissa : List Char → Option ℚ
  | '+' :: cs => parseUnsignedMantissa cs
  | '-' :: cs => (parseUnsignedMantissa cs).map (fun q => -q)
  | cs => parseUnsignedMantissa cs

/-- Python `float(w)` for finite decimal/scientific literals:
`[sign] mantissa [(e|E) [sign] digits]`, read as an exact rational. -/
def parseFloatQ (w : String) : Option ℚ :=
  match splitOnChar (fun c => c == 'e' || c == 'E') w.toList with
  | (mant, none) => parseSignedMantissa mant
  | (mant, some ecs) =>
    match parseSignedMantissa mant, parseSignedDigits ecs with
    | some m, some e => some (qMul m (qZpow 10 e))
    | _, _ => none

/-- Classification of one word, `_tokenize_expr`'s loop body: an exact operator
match yields the operator; otherwise `_try_parse(token, int, float)` attempts an
integer parse first, then a float parse, returning the first success, and fails
with `ValueError("Invalid symbol ...")` when both fail. -/
def classify (w : String) : Except EvalErr Token :=
  match OPCODES w with
  | some _ => .ok (.op w)
  | none =>
    match parseIntQ w with
    | some n => .ok (.num (n : ℚ))
    | none =>
      match parseFloatQ w with
      | some q => .ok (.num q)
      | none => .error (.invalidSymbol w)

/-- The lazy token stream `_tokenize_expr(expr)`: one classification result per
whitespace-separated word, forced only when the consumer reaches it. -/
def tokenizeL (expr : String) : List (Except EvalErr Token) :=
  (splitWords expr).map classify

/-- Python `list(tokens)`: force every remaining element of the generator in order,
propagating the first tokenization error. -/
def forceAll : List (Except EvalErr Token) → Except EvalErr (List Token)
  | [] => .ok []
  | .error e :: _ => .error e
  | .ok t :: rest =>
    match forceAll rest with
    | .error e => .error e
    | .ok ts => .ok (t :: ts)

/-- The swap `_postfix_swap(a, b) = (b, a)`: first-popped value becomes the rhs. -/
def postfixSwap (a b : Token) : Token × Token := (b, a)

/-- The swap `_prefix_swap(a, b) = (a, b)`: first-popped value becomes the lhs. -/
def prefixSwap (a b : Token) : Token × Token := (a, b)

/-- Apply a table function to two stack entries.  On non-numeric entries the
Python call `OPCODES[opcode](lhs, rhs)` raises `TypeError`, which no handler in
`eval_rpn._eval_expr`'s operator branch catches: a crash (`uncaught`). -/
def applyNum (f : ℚ → ℚ → Except EvalErr ℚ) : Token → Token → Except EvalErr ℚ
  | .num a, .num b => f a b
  | _, _ => .error .uncaught

/-- The loop of `eval_rpn._eval_expr`, parameterized by `swap_func` and returning
the final operand stack.  An operator token (`tok in OPCODES`) pops two entries
(`IndexError` → `invalidExpression` when fewer than two are available), routes
them through `swap_func`, and applies `_eval_op`; the `except KeyError` branch
(`unknownOperator`) guards the second `OPCODES` consultation inside `_eval_op`
and is unreachable, since membership was just checked on the same dict.  Every
other token — numbers, but also any non-operator string — is pushed. -/
def rpnGo (swap : Token → Token → Token × Token) :
    List (Except EvalErr Token) → List Token → Except EvalErr (List Token)
  | [], st => .ok st
  | .error e :: _, _ => .error e
  | .ok (.num q) :: rest, st => rpnGo swap rest (.num q :: st)
  | .ok (.op s) :: rest, st =>
    if (OPCODES s).isSome then
      match st with
      | a :: b :: st' =>
        match OPCODES s with
        | none => .error .unknownOperator
        | some f =>
          match applyNum f (swap a b).1 (swap a b).2 with
          | .error e => .error e
          | .ok v => rpnGo swap rest (.num v :: st')
      | _ => .error .invalidExpression
    else rpnGo swap rest (.op s :: st)

/-- The final check of `eval_rpn._eval_expr`: exactly one value may remain. -/
def rpnFinish : Except EvalErr (List Token) → Except EvalErr Token
  | .error e => .error e
  | .ok [t] => .ok t
  | .ok _ => .error .invalidExpression

/-- The entry point `eval_rpn.eval_postfix_expr`: tokenize lazily, run the stack engine with
`_postfix_swap`. -/
def eval_postfix_expr (expr : String) : Except EvalErr Token :=
  rpnFinish (rpnGo postfixSwap (tokenizeL expr) [])

/-- The entry point `eval_rpn.eval_prefix_expr`, as written: line 118 computes
`list(reversed(_tokenize_expr(expr)))`, applying `reversed` to a *generator*
object, which supports neither `__reversed__` nor the sequence protocol; CPython
raises `TypeError: 'generator' object is not reversible` before a single token
is examined, so the call crashes on every input. -/
def eval_prefix_expr_rpn (_expr : String) : Except EvalErr Token :=
  .error .uncaught

/-- The reversal strategy `eval_rpn.eval_prefix_expr` evidently intends, and the
spec (section 4.4) describes: materialize the token sequence into a list
(forcing any tokenization error), reverse it, and run the same stack engine with
`_prefix_swap`. -/
def eval_prefix_expr_rpn_intended (expr : String) : Except EvalErr Token :=
  match forceAll (tokenizeL expr) with
  | .error e => .error e
  | .ok ts => rpnFinish (rpnGo prefixSwap (ts.reverse.map Except.ok) [])

/-- The decrement `if count_stack: count_stack[-1] -= 1`. -/
def decTop : List ℤ → List ℤ
  | [] => []
  | c :: cs => (c - 1) :: cs

/-- One reduction of `eval_prefix._eval_expr`'s cascade body: pop `rhs`, `lhs`
and the operator (in that order; `IndexError` → `invalidExpression`), apply
`_eval_op` and push the result.  The `try` catches `ValueError`/`IndexError`
(→ `invalidExpression`) and `ZeroDivisionError` (→ `divisionByZero` kind).
Every other three-element shape crashes (`uncaught`): a number in operator
position or an unknown operator string raises a raw `KeyError` from
`OPCODES[op]`, and a non-numeric operand raises `TypeError` from the operator
function — none of which the `except` clauses catch. -/
def reduce1 : List Token → Except EvalErr (List Token)
  | .num b :: .num a :: .op s :: rest =>
    match OPCODES s with
    | some f =>
      match f a b with
      | .error e => .error e
      | .ok v => .ok (.num v :: rest)
    | none => .error .uncaught
  | _ :: _ :: _ :: _ => .error .uncaught
  | _ => .error .invalidExpression

/-- The `while count_stack and count_stack[-1] == 0` loop body, with the
top-of-stack count held as an explicit argument: while it is `0`, pop it,
reduce the completed subexpression, decrement the new top (if any), and
repeat. -/
def cascadeAux : List Token → ℤ → List ℤ → Except EvalErr (List Token × List ℤ)
  | tstack, c, cs =>
    if c = 0 then
      match reduce1 tstack with
      | .error e => .error e
      | .ok ts' =>
        match cs with
        | [] => .ok (ts', [])
        | c2 :: cs2 => cascadeAux ts' (c2 - 1) cs2
    else .ok (tstack, c :: cs)

/-- The `while count_stack and count_stack[-1] == 0` cascade on a count
stack. -/
def cascade : List Token → List ℤ → Except EvalErr (List Token × List ℤ)
  | tstack, [] => .ok (tstack, [])
  | tstack, c :: cs => cascadeAux tstack c cs

/-- The final check of `eval_prefix._eval_expr` (lines 63-68): the `return 0`
after the guard is dead code, faithfully preserved as the unreachable `[]`
branch. -/
def finalizeFwd (tstack : List Token) (cstack : List ℤ) : Except EvalErr Token :=
  if tstack.length ≠ 1 ∨ cstack ≠ [] then .error .invalidExpression
  else
    match tstack with
    | t :: _ => .ok t
    | [] => .ok (.num 0)

/-- The loop of `eval_prefix._eval_expr` over the lazy token stream.  A number
arriving on an empty operand stack triggers the leading-operand check, whose
`len(list(tokens))` forces and *consumes* the rest of the generator: when more
than one token remains the expression is rejected, otherwise the pushed number
is the last token the loop ever sees.  Operators are pushed together with a
pending-operand count of `2`; `ValueError("Invalid operator seen.")`
(`unknownOperator`) is the defensive branch for a non-`OPCODES` string.  After
every push the zero-count cascade runs. -/
def fwdGo : List (Except EvalErr Token) → List Token → List ℤ → Except EvalErr Token
  | [], tstack, cstack => finalizeFwd tstack cstack
  | .error e :: _, _, _ => .error e
  | .ok (.num q) :: rest, tstack, cstack =>
    if tstack.isEmpty then
      match forceAll rest with
      | .error e => .error e
      | .ok l =>
        if 1 < l.length then .error .invalidExpression
        else
          match cascade (.num q :: tstack) (decTop cstack) with
          | .error e => .error e
          | .ok st => finalizeFwd st.1 st.2
    else
      match cascade (.num q :: tstack) (decTop cstack) with
      | .error e => .error e
      | .ok st => fwdGo rest st.1 st.2
  | .ok (.op s) :: rest, tstack, cstack =>
    if (OPCODES s).isSome then
      match cascade (.op s :: tstack) (2 :: cstack) with
      | .error e => .error e
      | .ok st => fwdGo rest st.1 st.2
    else .error .unknownOperator

/-- The entry point `eval_prefix.eval_prefix_expr`: the forward scan with arity tracking. -/
def eval_prefix_expr_fwd (expr : String) : Except EvalErr Token :=
  fwdGo (tokenizeL expr) [] []

/-- One token of the forward-scan loop, without the leading-operand special
case (which can fire only on the very first token): push, adjust the count
stack, cascade. -/
def machineStep (t : Token) (st : List Token × List ℤ) :
    Except EvalErr (List Token × List ℤ) :=
  match t with
  | .num q => cascade (.num q :: st.1) (decTop st.2)
  | .op s =>
    if (OPCODES s).isSome then cascade (.op s :: st.1) (2 :: st.2)
    else .error .unknownOperator

/-- The forward-scan loop as a state machine on (operand stack, count stack). -/
def machineRun : List Token → List Token × List ℤ → Except EvalErr (List Token × List ℤ)
  | [], st => .ok st
  | t :: ts, st =>
    match machineStep t st with
    | .error e => .error e
    | .ok st' => machineRun ts st'

/-- A binary prefix-expression tree: the well-formed expressions both prefix
strategies are meant to accept. -/
inductive PTree where
  | leaf (q : ℚ)
  | node (s : String) (l r : PTree)

/-- Every operator in the tree is a key of the operator table. -/
def PTree.WF : PTree → Prop
  | .leaf _ => True
  | .node s l r => (OPCODES s).isSome = true ∧ l.WF ∧ r.WF

/-- The prefix token sequence of a tree. -/
def flatten : PTree → List Token
  | .leaf q => [.num q]
  | .node s l r => .op s :: (flatten l ++ flatten r)

/-- Reference semantics, operands evaluated left to right (the order in which
the forward scan applies the table functions). -/
def evalTreeFwd : PTree → Except EvalErr ℚ
  | .leaf q => .ok q
  | .node s l r =>
    match evalTreeFwd l with
    | .error e => .error e
    | .ok lv =>
      match evalTreeFwd r with
      | .error e => .error e
      | .ok rv =>
        match OPCODES s with
        | some f => f lv rv
        | none => .error .unknownOperator

/-- Reference semantics, operands evaluated right to left (the order in which
the reversal strategy applies the table functions). -/
def evalTreeRev : PTree → Except EvalErr ℚ
  | .leaf q => .ok q
  | .node s l r =>
    match evalTreeRev r with
    | .error e => .error e
    | .ok rv =>
      match evalTreeRev l with
      | .error e => .error e
      | .ok lv =>
        match OPCODES s with
        | some f => f lv rv
        | none => .error .unknownOperator

/-- What the tokenizer can actually emit: operator tokens are always table
keys, and the only error it raises is `InvalidSymbol`. -/
def GoodElem : Except EvalErr Token → Prop
  | .ok (.op s) => (OPCODES s).isSome = true
  | .ok (.num _) => True
  | .error e => ∃ w, e = .invalidSymbol w

/-! ### Basic lemmas about the embedded components -/

theorem qAdd_eq (a b : ℚ) : qAdd a b = a + b := by
  have ha : (a.den : ℚ) ≠ 0 := Nat.cast_ne_zero.mpr a.den_nz
  have hb : (b.den : ℚ) ≠ 0 := Nat.cast_ne_zero.mpr b.den_nz
  rw [qAdd, Rat.mkRat_eq_div]
  push_cast
  conv_rhs => rw [← Rat.num_div_den a, ← Rat.num_div_den b]
  rw [div_add_div _ _ ha hb]
  ring_nf

theorem qSub_eq (a b : ℚ) : qSub a b = a - b := by
  have ha : (a.den : ℚ) ≠ 0 := Nat.cast_ne_zero.mpr a.den_nz
  have hb : (b.den : ℚ) ≠ 0 := Nat.cast_ne_zero.mpr b.den_nz
  rw [qSub, Rat.mkRat_eq_div]
  push_cast
  conv_rhs => rw [← Rat.num_div_den a, ← Rat.num_div_den b]
  rw [div_sub_div _ _ ha hb]
  ring_nf

theorem qMul_eq (a b : ℚ) : qMul a b = a * b := by
  rw [qMul, Rat.mkRat_eq_div]
  push_cast
  conv_rhs => rw [← Rat.num_div_den a, ← Rat.num_div_den b]
  rw [div_mul_div_comm]

theorem qDiv_eq (a b : ℚ) : qDiv a b = a / b := by
  rw [qDiv, Rat.divInt_eq_div]
  push_cast
  conv_rhs => rw [← Rat.num_div_den a, ← Rat.num_div_den b]
  rw [div_div_eq_mul_div, div_mul_eq_mul_div, div_div]

theorem qNpow_eq (a : ℚ) (n : ℕ) : qNpow a n = a ^ n := by
  rw [qNpow, Rat.mkRat_eq_div]
  push_cast
  conv_rhs => rw [← Rat.num_div_den a]
  rw [div_pow]

theorem qZpow_eq (a : ℚ) (e : ℤ) : qZpow a e = a ^ e := by
  cases e with
  | ofNat n => rw [qZpow, qNpow_eq, Int.ofNat_eq_coe, zpow_natCast]
  | negSucc n =>
    rw [qZpow, Rat.divInt_eq_div, zpow_negSucc]
    push_cast
    conv_rhs => rw [← Rat.num_div_den a]
    rw [div_pow, inv_div]

/-- The function `Rat.floor` (reducible, used by the embedding) is the floor function of `ℚ`. -/
theorem ratFloor_eq (q : ℚ) : Rat.floor q = ⌊q⌋ :=
  le_antisymm (Int.le_floor.mpr (Rat.le_floor.mp (le_refl _)))
    (Rat.le_floor.mpr (Int.floor_le q))

theorem opAdd_eq (a b : ℚ) : opAdd a b = .ok (a + b) := by
  rw [opAdd, qAdd_eq]

theorem opSub_eq (a b : ℚ) : opSub a b = .ok (a - b) := by
  rw [opSub, qSub_eq]

theorem opMul_eq (a b : ℚ) : opMul a b = .ok (a * b) := by
  rw [opMul, qMul_eq]

theorem opDiv_eq (a b : ℚ) (h : b ≠ 0) : opDiv a b = .ok (a / b) := by
  rw [opDiv, if_neg h, qDiv_eq]

theorem opFloorDiv_eq (a b : ℚ) (h : b ≠ 0) :
    opFloorDiv a b = .ok ((⌊a / b⌋ : ℤ) : ℚ) := by
  rw [opFloorDiv, if_neg h, qDiv_eq, ratFloor_eq, Rat.ofInt_eq_cast]

theorem opMod_eq (a b : ℚ) (h : b ≠ 0) :
    opMod a b = .ok (a - b * ((⌊a / b⌋ : ℤ) : ℚ)) := by
  rw [opMod, if_neg h, qDiv_eq, ratFloor_eq, Rat.ofInt_eq_cast, qMul_eq, qSub_eq]

theorem opPow_eq_of_nonneg (a b : ℚ) (h1 : b.den = 1) (h2 : 0 ≤ b.num) :
    opPow a b = .ok (a ^ b.num.toNat) := by
  rw [opPow, if_pos h1, if_pos h2, qNpow_eq]

theorem decTop_length (cs : List ℤ) : (decTop cs).length = cs.length := by
  cases cs <;> rfl



theorem opAdd_err {a b : ℚ} {e} (h : opAdd a b = .error e) : e = .divisionByZero := by
  simp [opAdd] at h

theorem opSub_err {a b : ℚ} {e} (h : opSub a b = .error e) : e = .divisionByZero := by
  simp [opSub] at h

theorem opMul_err {a b : ℚ} {e} (h : opMul a b = .error e) : e = .divisionByZero := by
  simp [opMul] at h

theorem opDiv_err {a b : ℚ} {e} (h : opDiv a b = .error e) : e = .divisionByZero := by
  unfold opDiv at h
  split at h
  · exact (Except.error.inj h).symm
  · exact Except.noConfusion h

theorem opFloorDiv_err {a b : ℚ} {e} (h : opFloorDiv a b = .error e) :
    e = .divisionByZero := by
  unfold opFloorDiv at h
  split at h
  · exact (Except.error.inj h).symm
  · exact Except.noConfusion h

theorem opMod_err {a b : ℚ} {e} (h : opMod a b = .error e) : e = .divisionByZero := by
  unfold opMod at h
  split at h
  · exact (Except.error.inj h).symm
  · exact Except.noConfusion h

/-- The pow entry never yields the unknown-operator kind.  This is all the
development uses about the outcome of `^` (CPython's pow can also raise an
uncaught `OverflowError`, which the rational embedding collapses — see `opPow` —
but that error is not the unknown-operator kind either, so this lemma is faithful
to the source). -/
theorem opPow_no_unknown {a b : ℚ} : opPow a b ≠ .error .unknownOperator := by
  intro h
  unfold opPow at h
  split at h
  · split at h
    · exact Except.noConfusion h
    · split at h
      · exact EvalErr.noConfusion (Except.error.inj h)
      · exact Except.noConfusion h
  · split at h
    · exact EvalErr.noConfusion (Except.error.inj h)
    · exact Except.noConfusion h

theorem opLt_err {a b : ℚ} {e} (h : opLt a b = .error e) : e = .divisionByZero := by
  simp [opLt] at h

theorem opLe_err {a b : ℚ} {e} (h : opLe a b = .error e) : e = .divisionByZero := by
  simp [opLe] at h

theorem opGt_err {a b : ℚ} {e} (h : opGt a b = .error e) : e = .divisionByZero := by
  simp [opGt] at h

theorem opGe_err {a b : ℚ} {e} (h : opGe a b = .error e) : e = .divisionByZero := by
  simp [opGe] at h

theorem opEq_err {a b : ℚ} {e} (h : opEq a b = .error e) : e = .divisionByZero := by
  simp [opEq] at h

theorem opNe_err {a b : ℚ} {e} (h : opNe a b = .error e) : e = .divisionByZero := by
  simp [opNe] at h

/-- For every operator-table entry other than `^`, the only error the entry can
produce is `divisionByZero`.  (CPython's `^` entry is the unique one that can
raise anything else — an uncaught `OverflowError` on float overflow — so it is
excluded here and handled only by `opPow_no_unknown`.) -/
theorem opTable_err_of_ne_pow {s f} (hnp : s ≠ "^") (hs : OPCODES s = some f)
    {a b : ℚ} {e} (hf : f a b = .error e) : e = .divisionByZero := by
  unfold OPCODES at hs
  split at hs <;>
    first
      | exact Option.noConfusion hs
      | exact absurd rfl hnp
      | exact absurd (by assumption) hnp
      | (injection hs with hs; subst hs;
         first
           | exact opAdd_err hf
           | exact opSub_err hf
           | exact opMul_err hf
           | exact opDiv_err hf
           | exact opFloorDiv_err hf
           | exact opMod_err hf
           | exact opLt_err hf
           | exact opLe_err hf
           | exact opGt_err hf
           | exact opGe_err hf
           | exact opEq_err hf
           | exact opNe_err hf)

/-- No operator-table function ever yields the unknown-operator kind (faithful to
CPython for every entry, `^` included). -/
theorem opTable_no_unknown {s f} (hs : OPCODES s = some f) {a b : ℚ} :
    f a b ≠ .error .unknownOperator := by
  intro h
  unfold OPCODES at hs
  split at hs <;>
    first
      | exact Option.noConfusion hs
      | (injection hs with hs; subst hs;
         first
           | exact EvalErr.noConfusion (opAdd_err h)
           | exact EvalErr.noConfusion (opSub_err h)
           | exact EvalErr.noConfusion (opMul_err h)
           | exact EvalErr.noConfusion (opDiv_err h)
           | exact EvalErr.noConfusion (opFloorDiv_err h)
           | exact EvalErr.noConfusion (opMod_err h)
           | exact opPow_no_unknown h
           | exact EvalErr.noConfusion (opLt_err h)
           | exact EvalErr.noConfusion (opLe_err h)
           | exact EvalErr.noConfusion (opGt_err h)
           | exact EvalErr.noConfusion (opGe_err h)
           | exact EvalErr.noConfusion (opEq_err h)
           | exact EvalErr.noConfusion (opNe_err h))

theorem forceAll_map_ok (ts : List Token) : forceAll (ts.map Except.ok) = .ok ts := by
  induction ts with
  | nil => rfl
  | cons t rest ih => simp [forceAll, ih]

theorem forceAll_eq_ok {l : List (Except EvalErr Token)} {ts : List Token}
    (h : forceAll l = .ok ts) : l = ts.map Except.ok := by
  induction l generalizing ts with
  | nil => cases h; rfl
  | cons x rest ih =>
    match x, h with
    | .error e, h => exact Except.noConfusion h
    | .ok t, h =>
      rw [forceAll] at h
      split at h
      · exact Except.noConfusion h
      · cases h
        rename_i ts' h'
        rw [ih h']
        rfl

theorem forceAll_err_mem {l : List (Except EvalErr Token)} {e}
    (h : forceAll l = .error e) : Except.error e ∈ l := by
  induction l with
  | nil => exact Except.noConfusion h
  | cons x rest ih =>
    match x, h with
    | .error e', h => cases h; exact List.mem_cons_self _ _
    | .ok t, h =>
      rw [forceAll] at h
      split at h
      · rename_i h'
        cases h
        exact List.mem_cons_of_mem _ (ih h')
      · exact Except.noConfusion h

theorem cascade_pos {c : ℤ} (hc : c ≠ 0) (ts : List Token) (cs : List ℤ) :
    cascade ts (c :: cs) = .ok (ts, c :: cs) := by
  rw [cascade, cascadeAux, if_neg hc]

/-- The claim C8 cascade equation: a zero top count pops, reduces, and
decrements the next count. -/
theorem cascade_zero (ts : List Token) (cs : List ℤ) :
    cascade ts (0 :: cs) =
      match reduce1 ts with
      | .error e => .error e
      | .ok ts' => cascade ts' (decTop cs) := by
  rw [cascade, cascadeAux, if_pos rfl]
  cases h : reduce1 ts
  · rfl
  · cases cs <;> rfl

theorem reduce1_ok_shape {ts ts' : List Token} (h : reduce1 ts = .ok ts') :
    ∃ v rest, ts' = .num v :: rest := by
  unfold reduce1 at h
  split at h
  · split at h
    · split at h
      · exact Except.noConfusion h
      · cases h; exact ⟨_, _, rfl⟩
    · exact Except.noConfusion h
  · exact Except.noConfusion h
  · exact Except.noConfusion h

theorem cascadeAux_ne_nil {cs : List ℤ} :
    ∀ {ts : List Token} {c : ℤ} {ts' cs'},
      cascadeAux ts c cs = .ok (ts', cs') → ts ≠ [] → ts' ≠ [] := by
  induction cs with
  | nil =>
    intro ts c ts' cs' h hne
    rw [cascadeAux] at h
    split at h
    · cases hr : reduce1 ts with
      | error e => rw [hr] at h; exact Except.noConfusion h
      | ok ts'' =>
        rw [hr] at h
        cases h
        obtain ⟨v, rest, rfl⟩ := reduce1_ok_shape hr
        exact List.cons_ne_nil _ _
    · cases h; exact hne
  | cons c2 cs2 ih =>
    intro ts c ts' cs' h hne
    rw [cascadeAux] at h
    split at h
    · cases hr : reduce1 ts with
      | error e => rw [hr] at h; exact Except.noConfusion h
      | ok ts'' =>
        rw [hr] at h
        obtain ⟨v, rest, rfl⟩ := reduce1_ok_shape hr
        exact ih h (List.cons_ne_nil _ _)
    · cases h; exact hne

theorem cascade_ne_nil {ts : List Token} {cs : List ℤ} {ts' cs'}
    (h : cascade ts cs = .ok (ts', cs')) (hne : ts ≠ []) : ts' ≠ [] := by
  cases cs with
  | nil => cases h; exact hne
  | cons c cs => exact cascadeAux_ne_nil h hne

theorem machineRun_append (a b : List Token) (st : List Token × List ℤ) :
    machineRun (a ++ b) st =
      match machineRun a st with
      | .error e => .error e
      | .ok st' => machineRun b st' := by
  induction a generalizing st with
  | nil => rfl
  | cons t ts ih =>
    rw [List.cons_append, machineRun, machineRun]
    cases machineStep t st
    · rfl
    · exact ih _

theorem cascade_ne_nil' {ts : List Token} {cs : List ℤ} {st' : List Token × List ℤ}
    (h : cascade ts cs = .ok st') (hne : ts ≠ []) : st'.1 ≠ [] := by
  cases st'
  exact cascade_ne_nil h hne

theorem flatten_ne_nil (t : PTree) : flatten t ≠ [] := by
  cases t <;> simp [flatten]

/-! ### The forward scan and the reversal strategy both compute the tree
semantics -/

/-- A node of a `^`-free token stream has a non-`^` operator and `^`-free
subtree streams. -/
theorem powFree_node {s : String} {l r : PTree}
    (h : Token.op "^" ∉ flatten (PTree.node s l r)) :
    s ≠ "^" ∧ Token.op "^" ∉ flatten l ∧ Token.op "^" ∉ flatten r := by
  rw [flatten] at h
  simp only [List.mem_cons, List.mem_append, not_or] at h
  obtain ⟨h1, h2, h3⟩ := h
  exact ⟨fun hs => h1 (by rw [hs]), h2, h3⟩

/-- On a `^`-free tree, every error of the tree semantics is a `divisionByZero`
(left-to-right order).  The restriction to `^`-free trees is essential: `^` is
the one table entry whose CPython application can raise something other than
`ZeroDivisionError` (an uncaught `OverflowError`), which the rational embedding
collapses. -/
theorem evalTreeFwd_err (t : PTree) :
    ∀ (_ : t.WF) (_ : Token.op "^" ∉ flatten t) {e},
      evalTreeFwd t = .error e → e = .divisionByZero := by
  induction t with
  | leaf q => intro _ _ e h; exact Except.noConfusion h
  | node s l r ihl ihr =>
    intro ht hpow e h
    obtain ⟨hs, hl, hr⟩ := ht
    obtain ⟨hnp, hpl, hpr⟩ := powFree_node hpow
    obtain ⟨f, hf⟩ := Option.isSome_iff_exists.mp hs
    rw [evalTreeFwd] at h
    cases hel : evalTreeFwd l with
    | error e' => simp only [hel] at h; cases h; exact ihl hl hpl hel
    | ok lv =>
      simp only [hel] at h
      cases her : evalTreeFwd r with
      | error e' => simp only [her] at h; cases h; exact ihr hr hpr her
      | ok rv =>
        simp only [her, hf] at h
        exact opTable_err_of_ne_pow hnp hf h

/-- On a `^`-free tree, every error of the tree semantics is a `divisionByZero`
(right-to-left order). -/
theorem evalTreeRev_err (t : PTree) :
    ∀ (_ : t.WF) (_ : Token.op "^" ∉ flatten t) {e},
      evalTreeRev t = .error e → e = .divisionByZero := by
  induction t with
  | leaf q => intro _ _ e h; exact Except.noConfusion h
  | node s l r ihl ihr =>
    intro ht hpow e h
    obtain ⟨hs, hl, hr⟩ := ht
    obtain ⟨hnp, hpl, hpr⟩ := powFree_node hpow
    obtain ⟨f, hf⟩ := Option.isSome_iff_exists.mp hs
    rw [evalTreeRev] at h
    cases her : evalTreeRev r with
    | error e' => simp only [her] at h; cases h; exact ihr hr hpr her
    | ok rv =>
      simp only [her] at h
      cases hel : evalTreeRev l with
      | error e' => simp only [hel] at h; cases h; exact ihl hl hpl hel
      | ok lv =>
        simp only [hel, hf] at h
        exact opTable_err_of_ne_pow hnp hf h

/-- On a well-formed `^`-free tree the two operand-evaluation orders agree: the
only possible error of any node is `divisionByZero`, so even when both subtrees
fail the same error results.  With `^` tokens present this breaks down in
CPython — e.g. on the prefix stream of `"+ / 1 0 ^ 2.0 2000"` the left-to-right
order hits the caught `ZeroDivisionError` of the division while the
right-to-left order first crashes with the uncaught `OverflowError` of
`2.0 ** 2000` — so nothing here is claimed for trees containing `^`. -/
theorem evalTree_fwd_eq_rev (t : PTree) :
    t.WF → Token.op "^" ∉ flatten t → evalTreeFwd t = evalTreeRev t := by
  induction t with
  | leaf q => intro _ _; rfl
  | node s l r ihl ihr =>
    intro ht hpow
    obtain ⟨hs, hl, hr⟩ := ht
    obtain ⟨-, hpl, hpr⟩ := powFree_node hpow
    rw [evalTreeFwd, evalTreeRev, ihl hl hpl, ihr hr hpr]
    cases hel : evalTreeRev l with
    | error el =>
      cases her : evalTreeRev r with
      | error er =>
        rw [evalTreeRev_err l hl hpl hel, evalTreeRev_err r hr hpr her]
      | ok rv => rfl
    | ok lv =>
      cases her : evalTreeRev r <;> rfl

/-- Processing the prefix token stream of a well-formed tree from any machine
state behaves exactly like processing the single number the tree evaluates to
(or fails with the tree's error). -/
theorem machineRun_flatten (t : PTree) :
    ∀ (rest : List Token) (st : List Token × List ℤ), t.WF →
      machineRun (flatten t ++ rest) st =
        match evalTreeFwd t with
        | .error e => .error e
        | .ok v =>
          match machineStep (.num v) st with
          | .error e => .error e
          | .ok st' => machineRun rest st' := by
  induction t with
  | leaf q => intro rest st _; rfl
  | node s l r ihl ihr =>
    intro rest st ht
    obtain ⟨hs, hl, hr⟩ := ht
    obtain ⟨f, hf⟩ := Option.isSome_iff_exists.mp hs
    rw [flatten, List.cons_append, machineRun]
    have hstep : machineStep (.op s) st = .ok (.op s :: st.1, 2 :: st.2) := by
      simp [machineStep, hs, cascade_pos (by norm_num : (2:ℤ) ≠ 0)]
    simp only [hstep, List.append_assoc]
    rw [ihl _ _ hl]
    cases hel : evalTreeFwd l with
    | error e => simp only [evalTreeFwd, hel]
    | ok lv =>
      have hstep2 : machineStep (.num lv) (Token.op s :: st.1, 2 :: st.2)
          = .ok (.num lv :: .op s :: st.1, 1 :: st.2) := by
        simp [machineStep, decTop, cascade_pos (by norm_num : (1:ℤ) ≠ 0)]
      simp only [hel, hstep2]
      rw [ihr _ _ hr]
      cases her : evalTreeFwd r with
      | error e => simp only [evalTreeFwd, hel, her]
      | ok rv =>
        have hstep3 : machineStep (.num rv) (Token.num lv :: Token.op s :: st.1, 1 :: st.2)
            = match f lv rv with
              | .error e => .error e
              | .ok v => machineStep (.num v) st := by
          show cascade (Token.num rv :: Token.num lv :: Token.op s :: st.1) (decTop (1 :: st.2))
              = _
          rw [show decTop (1 :: st.2) = 0 :: st.2 by simp [decTop]]
          rw [cascade_zero]
          rw [show reduce1 (Token.num rv :: Token.num lv :: Token.op s :: st.1)
              = match f lv rv with
                | .error e => .error e
                | .ok v => .ok (.num v :: st.1) by simp [reduce1, hf]]
          cases f lv rv
          · rfl
          · rfl
        simp only [her, hstep3, evalTreeFwd, hel, hf]
        cases hfv : f lv rv
        · simp only [hfv]
        · simp only [hfv]

/-- Running the postfix stack engine with the prefix pop order over the
*reversed* prefix token stream of a well-formed tree pushes exactly the tree's
value (right subtrees are evaluated first, hence `evalTreeRev`). -/
theorem rpnGo_flatten_rev (t : PTree) :
    ∀ (rest : List (Except EvalErr Token)) (st : List Token), t.WF →
      rpnGo prefixSwap ((flatten t).reverse.map Except.ok ++ rest) st =
        match evalTreeRev t with
        | .error e => .error e
        | .ok v => rpnGo prefixSwap rest (.num v :: st) := by
  induction t with
  | leaf q => intro rest st _; rfl
  | node s l r ihl ihr =>
    intro rest st ht
    obtain ⟨hs, hl, hr⟩ := ht
    obtain ⟨f, hf⟩ := Option.isSome_iff_exists.mp hs
    rw [flatten, List.reverse_cons, List.reverse_append]
    simp only [List.map_append, List.append_assoc]
    rw [ihr _ _ hr]
    cases her : evalTreeRev r with
    | error e => simp only [evalTreeRev, her]
    | ok rv =>
      simp only [her]
      rw [ihl _ _ hl]
      cases hel : evalTreeRev l with
      | error e => simp only [evalTreeRev, her, hel]
      | ok lv =>
        simp only [hel, evalTreeRev, her, hf, List.map_cons, List.map_nil,
          List.singleton_append]
        rw [rpnGo]
        simp only [hs, if_true, hf, applyNum, prefixSwap]
        cases hfv : f lv rv
        · simp [hfv]
        · simp [hfv]

/-- Once the operand stack is nonempty the leading-operand special case can
never fire again, and the forward scan is exactly the state machine followed by
the final check. -/
theorem fwdGo_machine (ts : List Token) :
    ∀ (tstack : List Token) (cstack : List ℤ), tstack ≠ [] →
      fwdGo (ts.map Except.ok) tstack cstack =
        match machineRun ts (tstack, cstack) with
        | .error e => .error e
        | .ok st' => finalizeFwd st'.1 st'.2 := by
  induction ts with
  | nil => intro tstack cstack _; rfl
  | cons t ts ih =>
    intro tstack cstack h
    obtain ⟨x, xs, rfl⟩ := List.exists_cons_of_ne_nil h
    cases t with
    | num q =>
      rw [List.map_cons, fwdGo, machineRun]
      simp only [List.isEmpty_cons, Bool.false_eq_true, if_false]
      show (match cascade (Token.num q :: x :: xs) (decTop cstack) with
        | Except.error e => (Except.error e : Except EvalErr Token)
        | Except.ok st => fwdGo (ts.map Except.ok) st.1 st.2) = _
      cases hc : cascade (Token.num q :: x :: xs) (decTop cstack) with
      | error e => simp only [machineStep, hc]
      | ok st' =>
        simp only [machineStep, hc]
        exact ih st'.1 st'.2 (cascade_ne_nil' hc (List.cons_ne_nil _ _))
    | op s =>
      rw [List.map_cons, fwdGo, machineRun]
      cases hs : (OPCODES s).isSome with
      | false => simp only [machineStep, hs, Bool.false_eq_true, if_false]
      | true =>
        simp only [machineStep, hs, if_true]
        cases hc : cascade (.op s :: x :: xs) (2 :: cstack) with
        | error e => rfl
        | ok st' => exact ih st'.1 st'.2 (cascade_ne_nil' hc (List.cons_ne_nil _ _))

/-- The forward-scan prefix evaluator maps the token stream of a well-formed
tree to the tree's value. -/
theorem fwdGo_flatten (t : PTree) (ht : t.WF) :
    fwdGo ((flatten t).map Except.ok) [] [] =
      match evalTreeFwd t with
      | .error e => .error e
      | .ok v => .ok (.num v) := by
  cases t with
  | leaf q => rfl
  | node s l r =>
    obtain ⟨hs, hl, hr⟩ := ht
    obtain ⟨f, hf⟩ := Option.isSome_iff_exists.mp hs
    rw [flatten, List.map_cons, fwdGo]
    simp only [hs, if_true]
    rw [cascade_pos (by norm_num : (2:ℤ) ≠ 0)]
    show fwdGo ((flatten l ++ flatten r).map Except.ok) [.op s] [2] = _
    rw [fwdGo_machine _ _ _ (List.cons_ne_nil _ _)]
    rw [show flatten l ++ flatten r = flatten l ++ (flatten r ++ []) by simp]
    rw [machineRun_flatten l _ _ hl]
    cases hel : evalTreeFwd l with
    | error e => simp only [evalTreeFwd, hel]
    | ok lv =>
      have hstep2 : machineStep (.num lv) ([Token.op s], [2])
          = .ok ([.num lv, .op s], [1]) := by
        simp [machineStep, decTop, cascade_pos (by norm_num : (1:ℤ) ≠ 0)]
      simp only [hel, hstep2]
      rw [machineRun_flatten r _ _ hr]
      cases her : evalTreeFwd r with
      | error e => simp only [evalTreeFwd, hel, her]
      | ok rv =>
        have hstep3 : machineStep (.num rv) ([Token.num lv, Token.op s], [1])
            = match f lv rv with
              | .error e => .error e
              | .ok v => .ok ([.num v], []) := by
          show cascade [Token.num rv, Token.num lv, Token.op s] (decTop [1]) = _
          rw [show decTop [1] = [0] by simp [decTop]]
          rw [cascade_zero]
          rw [show reduce1 [Token.num rv, Token.num lv, Token.op s]
              = match f lv rv with
                | .error e => .error e
                | .ok v => .ok [.num v] by simp [reduce1, hf]]
          cases f lv rv
          · rfl
          · simp [decTop, cascade]
        simp only [her, hstep3, evalTreeFwd, hel, hf]
        cases hfv : f lv rv
        · simp only [hfv]
        · simp only [hfv]
          rfl

/-! ### Structural malformations: missing and unconsumed operands -/

theorem prefix_append_cases {α : Type} (a : List α) :
    ∀ (p b : List α), p <+: a ++ b → p <+: a ∨ ∃ q, p = a ++ q ∧ q <+: b := by
  induction a with
  | nil => intro p b h; right; exact ⟨p, rfl, h⟩
  | cons x a ih =>
    intro p b h
    cases p with
    | nil => left; exact List.nil_prefix
    | cons y p =>
      rw [List.cons_append, List.cons_prefix_cons] at h
      obtain ⟨rfl, h⟩ := h
      rcases ih p b h with h1 | ⟨q, rfl, hq⟩
      · left; exact List.cons_prefix_cons.mpr ⟨rfl, h1⟩
      · right; exact ⟨q, rfl, hq⟩

theorem prefix_of_singleton {α : Type} {p : List α} {x : α} (h : p <+: [x]) :
    p = [] ∨ p = [x] := by
  cases p with
  | nil => left; rfl
  | cons y ys =>
    rw [List.cons_prefix_cons] at h
    obtain ⟨rfl, h⟩ := h
    right
    rw [List.prefix_nil.mp h]

theorem evalNode_ok {s : String} {l r : PTree} {v : ℚ}
    (h : evalTreeFwd (.node s l r) = .ok v) :
    ∃ lv rv, evalTreeFwd l = .ok lv ∧ evalTreeFwd r = .ok rv := by
  rw [evalTreeFwd] at h
  cases hel : evalTreeFwd l with
  | error e =>
    simp only [hel] at h
    exact Except.noConfusion h
  | ok lv =>
    simp only [hel] at h
    cases her : evalTreeFwd r with
    | error e =>
      simp only [her] at h
      exact Except.noConfusion h
    | ok rv => exact ⟨lv, rv, rfl, rfl⟩

theorem finalizeFwd_cs_ne {ts : List Token} {cs : List ℤ} (h : cs ≠ []) :
    finalizeFwd ts cs = .error .invalidExpression := by
  unfold finalizeFwd
  rw [if_pos (Or.inr h)]

theorem finalizeFwd_len {ts : List Token} {cs : List ℤ} (h : ts.length ≠ 1) :
    finalizeFwd ts cs = .error .invalidExpression := by
  unfold finalizeFwd
  rw [if_pos (Or.inl h)]

/-- An operator-led forward scan from the initial state is the state machine
from the state just after the leading operator. -/
theorem fwdGo_op_machine {s : String} (hs : (OPCODES s).isSome = true)
    (p : List Token) :
    fwdGo ((Token.op s :: p).map Except.ok) [] [] =
      match machineRun p ([Token.op s], [2]) with
      | .error e => .error e
      | .ok st' => finalizeFwd st'.1 st'.2 := by
  rw [List.map_cons, fwdGo]
  simp only [hs, if_true]
  rw [cascade_pos (by norm_num : (2:ℤ) ≠ 0)]
  exact fwdGo_machine p _ _ (List.cons_ne_nil _ _)

/-- Running the machine over a *proper* prefix of a cleanly-evaluating
well-formed tree's token stream never fails and never pops into the count
stack it started with: the counts below remain as an untouched suffix (in
particular the count stack stays nonempty if it started nonempty). -/
theorem machineRun_proper_pref (t : PTree) :
    ∀ (_ : t.WF) (_ : ∃ v, evalTreeFwd t = .ok v)
      (q : List Token) (st : List Token × List ℤ),
      q <+: flatten t → q ≠ flatten t →
      ∃ st' δ, machineRun q st = .ok st' ∧ st'.2 = δ ++ st.2 ∧ (q ≠ [] → δ ≠ []) := by
  induction t with
  | leaf qq =>
    intro _ _ q st hpre hne
    rw [flatten] at hpre hne
    rcases prefix_of_singleton hpre with rfl | rfl
    · exact ⟨st, [], rfl, rfl, fun hq => absurd rfl hq⟩
    · exact absurd rfl hne
  | node s l r ihl ihr =>
    intro ht hv q st hpre hne
    obtain ⟨hs, hl, hr⟩ := ht
    obtain ⟨v, hv⟩ := hv
    obtain ⟨lv, rv, hlv, hrv⟩ := evalNode_ok hv
    rw [flatten] at hpre hne
    cases q with
    | nil => exact ⟨st, [], rfl, rfl, fun hq => absurd rfl hq⟩
    | cons y q =>
      rw [List.cons_prefix_cons] at hpre
      obtain ⟨rfl, hpre⟩ := hpre
      have hstep : machineStep (.op s) st = .ok (.op s :: st.1, 2 :: st.2) := by
        simp [machineStep, hs, cascade_pos (by norm_num : (2:ℤ) ≠ 0)]
      have hstep2 : machineStep (.num lv) (Token.op s :: st.1, 2 :: st.2)
          = .ok (.num lv :: .op s :: st.1, 1 :: st.2) := by
        simp [machineStep, decTop, cascade_pos (by norm_num : (1:ℤ) ≠ 0)]
      have hq_ne : q ≠ flatten l ++ flatten r := fun hh => hne (by rw [hh])
      rw [machineRun]
      simp only [hstep]
      rcases prefix_append_cases (flatten l) q (flatten r) hpre with h1 | ⟨q2, rfl, hq2⟩
      · by_cases heq : q = flatten l
        · subst heq
          rw [show flatten l = flatten l ++ [] from (List.append_nil _).symm,
            machineRun_flatten l _ _ hl]
          simp only [hlv, hstep2]
          exact ⟨(.num lv :: .op s :: st.1, 1 :: st.2), [1], rfl, rfl,
            fun _ => List.cons_ne_nil _ _⟩
        · obtain ⟨st', δ, hrun, hsuf, -⟩ := ihl hl ⟨lv, hlv⟩ q _ h1 heq
          refine ⟨st', δ ++ [2], hrun, ?_, fun _ => by simp⟩
          rw [hsuf]
          simp
      · have hq2ne : q2 ≠ flatten r := fun hh => hq_ne (by rw [hh])
        rw [machineRun_flatten l q2 _ hl]
        simp only [hlv, hstep2]
        obtain ⟨st', δ, hrun, hsuf, -⟩ := ihr hr ⟨rv, hrv⟩ q2 _ hq2 hq2ne
        refine ⟨st', δ ++ [1], hrun, ?_, fun _ => by simp⟩
        rw [hsuf]
        simp

/-- Trailing numeric operands after a complete expression only ever pile up on
the operand stack: the count stack stays empty and every token adds one
entry. -/
theorem machineRun_nums :
    ∀ (extra : List Token), (∀ x ∈ extra, ∃ qq, x = Token.num qq) →
      ∀ ts : List Token, ∃ ts', machineRun extra (ts, []) = .ok (ts', []) ∧
        ts'.length = extra.length + ts.length := by
  intro extra
  induction extra with
  | nil => intro _ ts; exact ⟨ts, rfl, by simp⟩
  | cons x xs ih =>
    intro hnum ts
    obtain ⟨qq, rfl⟩ := hnum x (List.mem_cons_self _ _)
    have hnum' : ∀ x ∈ xs, ∃ qq, x = Token.num qq :=
      fun x hx => hnum x (List.mem_cons_of_mem _ hx)
    have hstep : machineStep (.num qq) (ts, []) = .ok (.num qq :: ts, []) := by
      simp [machineStep, decTop, cascade]
    rw [machineRun]
    simp only [hstep]
    obtain ⟨ts', hrun, hlen⟩ := ih hnum' (Token.num qq :: ts)
    refine ⟨ts', hrun, ?_⟩
    rw [hlen]
    simp
    omega

/-- The intended reversal strategy maps the reversed token stream of a
well-formed `^`-free tree to the tree's value (stated with the forward
evaluation order, to which the right-to-left order is equal on well-formed
`^`-free trees). -/
theorem rpnRev_flatten (t : PTree) (ht : t.WF) (hpow : Token.op "^" ∉ flatten t) :
    rpnFinish (rpnGo prefixSwap ((flatten t).reverse.map Except.ok) []) =
      match evalTreeFwd t with
      | .error e => .error e
      | .ok v => .ok (.num v) := by
  have h := rpnGo_flatten_rev t [] [] ht
  rw [List.append_nil] at h
  rw [h, evalTree_fwd_eq_rev t ht hpow]
  cases hev : evalTreeRev t with
  | error e => rfl
  | ok v => rfl

/-! ### The count-stack invariant (claim C8) -/

theorem cascadeAux_inv (cs : List ℤ) :
    ∀ (ts : List Token) (c : ℤ) {ts' : List Token} {cs' : List ℤ},
      (c = 0 ∨ c = 1 ∨ c = 2) → (∀ x ∈ cs, x = 1 ∨ x = 2) →
      cascadeAux ts c cs = .ok (ts', cs') → ∀ x ∈ cs', x = 1 ∨ x = 2 := by
  induction cs with
  | nil =>
    intro ts c ts' cs' hc hcs h x hx
    by_cases hc0 : c = 0
    · rw [cascadeAux, if_pos hc0] at h
      cases hr : reduce1 ts with
      | error e => simp only [hr] at h; exact Except.noConfusion h
      | ok ts2 =>
        simp only [hr] at h
        cases h
        exact absurd hx (List.not_mem_nil x)
    · rw [cascadeAux, if_neg hc0] at h
      cases h
      rw [List.mem_singleton.mp hx]
      rcases hc with rfl | rfl | rfl
      · exact absurd rfl hc0
      · left; rfl
      · right; rfl
  | cons c2 cs2 ih =>
    intro ts c ts' cs' hc hcs h x hx
    by_cases hc0 : c = 0
    · rw [cascadeAux, if_pos hc0] at h
      cases hr : reduce1 ts with
      | error e => simp only [hr] at h; exact Except.noConfusion h
      | ok ts2 =>
        simp only [hr] at h
        have hc2 : c2 = 1 ∨ c2 = 2 := hcs c2 (List.mem_cons_self _ _)
        have hcs2 : ∀ y ∈ cs2, y = 1 ∨ y = 2 :=
          fun y hy => hcs y (List.mem_cons_of_mem _ hy)
        have hc2' : c2 - 1 = 0 ∨ c2 - 1 = 1 ∨ c2 - 1 = 2 := by omega
        exact ih ts2 (c2 - 1) hc2' hcs2 h x hx
    · rw [cascadeAux, if_neg hc0] at h
      cases h
      rcases List.mem_cons.mp hx with rfl | hx2
      · rcases hc with rfl | rfl | rfl
        · exact absurd rfl hc0
        · left; rfl
        · right; rfl
      · exact hcs x hx2

theorem machineStep_inv {t : Token} {st st' : List Token × List ℤ}
    (hcs : ∀ x ∈ st.2, x = 1 ∨ x = 2) (h : machineStep t st = .ok st') :
    ∀ x ∈ st'.2, x = 1 ∨ x = 2 := by
  obtain ⟨ts', cs'⟩ := st'
  cases t with
  | num q =>
    rw [machineStep] at h
    cases hst2 : st.2 with
    | nil =>
      rw [hst2] at h
      rw [show decTop [] = [] from rfl] at h
      rw [show cascade (Token.num q :: st.1) [] = .ok (Token.num q :: st.1, []) from rfl]
        at h
      cases h
      exact fun x hx => absurd hx (List.not_mem_nil x)
    | cons c cs =>
      rw [hst2] at h
      rw [show decTop (c :: cs) = (c - 1) :: cs from rfl] at h
      have hc : c = 1 ∨ c = 2 := hcs c (hst2 ▸ List.mem_cons_self _ _)
      have hcs' : ∀ x ∈ cs, x = 1 ∨ x = 2 :=
        fun x hx => hcs x (hst2 ▸ List.mem_cons_of_mem _ hx)
      exact fun x hx => cascadeAux_inv cs _ (c - 1) (by omega) hcs' h x hx
  | op s =>
    rw [machineStep] at h
    by_cases hs : (OPCODES s).isSome
    · rw [if_pos hs] at h
      exact fun x hx =>
        cascadeAux_inv st.2 _ 2 (by omega) hcs h x hx
    · rw [if_neg hs] at h
      exact Except.noConfusion h

theorem machineRun_inv (ts : List Token) :
    ∀ (st st' : List Token × List ℤ), (∀ x ∈ st.2, x = 1 ∨ x = 2) →
      machineRun ts st = .ok st' → ∀ x ∈ st'.2, x = 1 ∨ x = 2 := by
  induction ts with
  | nil => intro st st' h hrun; cases hrun; exact h
  | cons t ts ih =>
    intro st st' h hrun
    rw [machineRun] at hrun
    cases hstep : machineStep t st with
    | error e => simp only [hstep] at hrun; exact Except.noConfusion hrun
    | ok st2 =>
      simp only [hstep] at hrun
      exact ih st2 st' (machineStep_inv h hstep) hrun

/-! ### The defensive unknown-operator branches (claim C10) -/

theorem classify_good (w : String) : GoodElem (classify w) := by
  unfold classify
  cases hw : OPCODES w with
  | some f =>
    show (OPCODES w).isSome = true
    simp [hw]
  | none =>
    cases hi : parseIntQ w with
    | some n => exact trivial
    | none =>
      cases hf : parseFloatQ w with
      | some q => exact trivial
      | none => exact ⟨w, rfl⟩

theorem tokenizeL_good (expr : String) : ∀ x ∈ tokenizeL expr, GoodElem x := by
  intro x hx
  rw [tokenizeL] at hx
  obtain ⟨w, _, rfl⟩ := List.mem_map.mp hx
  exact classify_good w

theorem reduce1_no_unknown (ts : List Token) :
    reduce1 ts ≠ .error .unknownOperator := by
  intro h
  unfold reduce1 at h
  split at h
  · rename_i b a s rest
    cases hs : OPCODES s with
    | none =>
      simp only [hs] at h
      exact EvalErr.noConfusion (Except.error.inj h)
    | some f =>
      simp only [hs] at h
      cases hfe : f a b with
      | error e =>
        simp only [hfe] at h
        have he := Except.error.inj h
        rw [he] at hfe
        exact opTable_no_unknown hs hfe
      | ok v =>
        simp only [hfe] at h
        exact Except.noConfusion h
  · exact EvalErr.noConfusion (Except.error.inj h)
  · exact EvalErr.noConfusion (Except.error.inj h)

theorem cascadeAux_no_unknown (cs : List ℤ) :
    ∀ (ts : List Token) (c : ℤ), cascadeAux ts c cs ≠ .error .unknownOperator := by
  induction cs with
  | nil =>
    intro ts c h
    rw [cascadeAux] at h
    split at h
    · cases hr : reduce1 ts with
      | error e =>
        simp only [hr] at h
        exact reduce1_no_unknown ts (by rw [hr, Except.error.inj h])
      | ok ts2 =>
        simp only [hr] at h
        exact Except.noConfusion h
    · exact Except.noConfusion h
  | cons c2 cs2 ih =>
    intro ts c h
    rw [cascadeAux] at h
    split at h
    · cases hr : reduce1 ts with
      | error e =>
        simp only [hr] at h
        exact reduce1_no_unknown ts (by rw [hr, Except.error.inj h])
      | ok ts2 =>
        simp only [hr] at h
        exact ih ts2 (c2 - 1) h
    · exact Except.noConfusion h

theorem cascade_no_unknown (ts : List Token) (cs : List ℤ) :
    cascade ts cs ≠ .error .unknownOperator := by
  cases cs with
  | nil => exact fun h => Except.noConfusion h
  | cons c cs => exact cascadeAux_no_unknown cs ts c

theorem finalizeFwd_no_unknown (ts : List Token) (cs : List ℤ) :
    finalizeFwd ts cs ≠ .error .unknownOperator := by
  intro h
  unfold finalizeFwd at h
  split at h
  · exact EvalErr.noConfusion (Except.error.inj h)
  · split at h <;> exact Except.noConfusion h

theorem fwdGo_no_unknown (l : List (Except EvalErr Token)) :
    ∀ (tstack : List Token) (cstack : List ℤ), (∀ x ∈ l, GoodElem x) →
      fwdGo l tstack cstack ≠ .error .unknownOperator := by
  induction l with
  | nil => intro ts cs _; exact finalizeFwd_no_unknown ts cs
  | cons x rest ih =>
    intro tstack cstack hg h
    have hgrest : ∀ y ∈ rest, GoodElem y :=
      fun y hy => hg y (List.mem_cons_of_mem _ hy)
    cases x with
    | error e =>
      obtain ⟨w, rfl⟩ := hg _ (List.mem_cons_self _ _)
      rw [fwdGo] at h
      exact EvalErr.noConfusion (Except.error.inj h)
    | ok t =>
      cases t with
      | num q =>
        rw [fwdGo] at h
        cases htse : tstack.isEmpty with
        | true =>
          simp only [htse, if_true] at h
          cases hfa : forceAll rest with
          | error e =>
            simp only [hfa] at h
            obtain ⟨w, hw⟩ := hgrest _ (forceAll_err_mem hfa)
            rw [show e = EvalErr.invalidSymbol w from hw] at h
            exact EvalErr.noConfusion (Except.error.inj h)
          | ok lst =>
            simp only [hfa] at h
            by_cases hlen : 1 < lst.length
            · rw [if_pos hlen] at h
              exact EvalErr.noConfusion (Except.error.inj h)
            · rw [if_neg hlen] at h
              cases hc : cascade (.num q :: tstack) (decTop cstack) with
              | error e =>
                simp only [hc] at h
                exact cascade_no_unknown _ _ (by rw [hc, Except.error.inj h])
              | ok st2 =>
                simp only [hc] at h
                exact finalizeFwd_no_unknown _ _ h
        | false =>
          simp only [htse, Bool.false_eq_true, if_false] at h
          cases hc : cascade (.num q :: tstack) (decTop cstack) with
          | error e =>
            simp only [hc] at h
            exact cascade_no_unknown _ _ (by rw [hc, Except.error.inj h])
          | ok st2 =>
            simp only [hc] at h
            exact ih _ _ hgrest h
      | op s =>
        rw [fwdGo] at h
        have hg' : (OPCODES s).isSome = true := hg _ (List.mem_cons_self _ _)
        simp only [hg', if_true] at h
        cases hc : cascade (.op s :: tstack) (2 :: cstack) with
        | error e =>
          simp only [hc] at h
          exact cascade_no_unknown _ _ (by rw [hc, Except.error.inj h])
        | ok st2 =>
          simp only [hc] at h
          exact ih _ _ hgrest h

theorem applyNum_no_unknown {s : String} {f} (hf : OPCODES s = some f)
    (x y : Token) : applyNum f x y ≠ .error .unknownOperator := by
  intro h
  unfold applyNum at h
  split at h
  · exact opTable_no_unknown hf h
  · exact EvalErr.noConfusion (Except.error.inj h)

theorem rpnGo_no_unknown (sw : Token → Token → Token × Token)
    (l : List (Except EvalErr Token)) :
    ∀ (st : List Token), (∀ x ∈ l, GoodElem x) →
      rpnGo sw l st ≠ .error .unknownOperator := by
  induction l with
  | nil => intro st _ h; exact Except.noConfusion h
  | cons x rest ih =>
    intro st hg h
    have hgrest : ∀ y ∈ rest, GoodElem y :=
      fun y hy => hg y (List.mem_cons_of_mem _ hy)
    cases x with
    | error e =>
      obtain ⟨w, rfl⟩ := hg _ (List.mem_cons_self _ _)
      rw [rpnGo] at h
      exact EvalErr.noConfusion (Except.error.inj h)
    | ok t =>
      cases t with
      | num q =>
        rw [rpnGo] at h
        exact ih _ hgrest h
      | op s =>
        have hg' : (OPCODES s).isSome = true := hg _ (List.mem_cons_self _ _)
        obtain ⟨f, hf⟩ := Option.isSome_iff_exists.mp hg'
        cases st with
        | nil =>
          rw [rpnGo] at h
          · simp only [hg', if_true] at h
            exact EvalErr.noConfusion (Except.error.inj h)
          · intro a b st' hco
            exact List.noConfusion hco
        | cons a st1 =>
          cases st1 with
          | nil =>
            rw [rpnGo] at h
            · simp only [hg', if_true] at h
              exact EvalErr.noConfusion (Except.error.inj h)
            · intro a1 b st' hco
              simp at hco
          | cons b st2 =>
            rw [rpnGo] at h
            simp only [hg', if_true, hf] at h
            cases ha : applyNum f (sw a b).1 (sw a b).2 with
            | error e =>
              simp only [ha] at h
              exact applyNum_no_unknown hf _ _ (by rw [ha, Except.error.inj h])
            | ok v =>
              simp only [ha] at h
              exact ih _ hgrest h

theorem rpnFinish_no_unknown {r : Except EvalErr (List Token)}
    (hr : r ≠ .error .unknownOperator) :
    rpnFinish r ≠ .error .unknownOperator := by
  cases r with
  | error e =>
    intro h
    exact hr (congrArg Except.error (Except.error.inj h))
  | ok st =>
    intro h
    cases st with
    | nil => exact EvalErr.noConfusion (Except.error.inj h)
    | cons a tl =>
      cases tl with
      | nil => exact Except.noConfusion h
      | cons b tl2 => exact EvalErr.noConfusion (Except.error.inj h)

/-- Helper for C2: on any input whose token stream is a well-formed prefix
expression containing no `^` token, the forward scan and the intended reversal
strategy agree. -/
theorem fwd_eq_intended {expr : String} {ts : List Token} {t : PTree}
    (htok : forceAll (tokenizeL expr) = .ok ts) (ht : t.WF)
    (hflat : flatten t = ts) (hpow : Token.op "^" ∉ ts) :
    eval_prefix_expr_fwd expr = eval_prefix_expr_rpn_intended expr := by
  have hmap : tokenizeL expr = ts.map Except.ok := forceAll_eq_ok htok
  have hpow' : Token.op "^" ∉ flatten t := by rw [hflat]; exact hpow
  rw [eval_prefix_expr_fwd, eval_prefix_expr_rpn_intended, hmap]
  simp only [forceAll_map_ok]
  rw [← hflat, fwdGo_flatten t ht, rpnRev_flatten t ht hpow']

/-! ### Claim theorems -/

/-- C1 (code bug in the source): the claim — and `eval_prefix.py`'s own test
table entry `("", 0)` together with its dead `return 0` — say the empty token
sequence is a degenerate valid expression evaluating to `0`; but both
evaluators' final check (`len(...) != 1`) fires on the empty stack, so the code
raises `ValueError("Invalid expression.")` on the empty string instead. -/
theorem c1_empty_input :
    eval_postfix_expr "" = .error .invalidExpression ∧
    eval_prefix_expr_fwd "" = .error .invalidExpression := by
  exact ⟨by decide, by decide⟩

/-- C2 counterexample: the claim says the reversal-strategy prefix evaluator
produces the same result as the forward-scan evaluator for every input string;
at `"+ 3 4"` the forward scan returns `7` while `eval_rpn.eval_prefix_expr`
crashes (`reversed()` applied to a generator raises `TypeError` on every
call), so the two differ. -/
theorem c2_reversal_counterexample :
    eval_prefix_expr_rpn "+ 3 4" ≠ eval_prefix_expr_fwd "+ 3 4" := by decide

/-- C2 (amended): as written, `eval_rpn.eval_prefix_expr` raises `TypeError`
on every input because `reversed()` is applied to a generator; with the token
sequence materialized into a list as evidently intended, the reversal strategy
agrees with the forward-scan evaluator on every input string whose token
stream is a well-formed prefix expression containing no `^` token.  Both
carve-outs are forced by the program: on some invalid inputs, e.g. `"3 4"`,
the two strategies disagree (see C9); and with `^` present the agreement fails
in CPython because float `**` can raise an uncaught `OverflowError` — on
`"+ / 1 0 ^ 2.0 2000"` the forward scan reduces `/ 1 0` first and reports the
caught division by zero, while the materialized reversal reduces `^ 2.0 2000`
first and crashes — an outcome outside the exact-rational embedding (see
`opPow`), which is why the theorem requires the token stream `^`-free. -/
theorem c2_reversal_amended (expr : String) (ts : List Token) (t : PTree)
    (htok : forceAll (tokenizeL expr) = .ok ts) (ht : t.WF)
    (hflat : flatten t = ts) (hpow : Token.op "^" ∉ ts) :
    eval_prefix_expr_fwd expr = eval_prefix_expr_rpn_intended expr ∧
    eval_prefix_expr_rpn expr = .error .uncaught :=
  ⟨fwd_eq_intended htok ht hflat hpow, rfl⟩

/-- Witness for C2 at the concrete input `"+ 3 4"`. -/
theorem c2_reversal_amended_witness :
    forceAll (tokenizeL "+ 3 4") = .ok [Token.op "+", Token.num 3, Token.num 4] ∧
    (PTree.node "+" (PTree.leaf 3) (PTree.leaf 4)).WF ∧
    flatten (PTree.node "+" (PTree.leaf 3) (PTree.leaf 4))
      = [Token.op "+", Token.num 3, Token.num 4] ∧
    Token.op "^" ∉ [Token.op "+", Token.num 3, Token.num 4] ∧
    eval_prefix_expr_fwd "+ 3 4" = eval_prefix_expr_rpn_intended "+ 3 4" ∧
    eval_prefix_expr_rpn "+ 3 4" = .error .uncaught := by
  have h1 : forceAll (tokenizeL "+ 3 4")
      = .ok [Token.op "+", Token.num 3, Token.num 4] := by decide
  have h2 : (PTree.node "+" (PTree.leaf 3) (PTree.leaf 4)).WF := ⟨rfl, trivial, trivial⟩
  have h3 : flatten (PTree.node "+" (PTree.leaf 3) (PTree.leaf 4))
      = [Token.op "+", Token.num 3, Token.num 4] := by decide
  have h4 : Token.op "^" ∉ [Token.op "+", Token.num 3, Token.num 4] := by decide
  obtain ⟨h5, h6⟩ := c2_reversal_amended "+ 3 4" _ _ h1 h2 h3 h4
  exact ⟨h1, h2, h3, h4, h5, h6⟩

/-- C3 counterexample: the claim says prefix inputs with operands left
unconsumed — explicitly including two consecutive bare numbers at the start —
fail with `InvalidExpression`; but `"3 4"` evaluates successfully to `3` (the
leading-operand heuristic's `len(list(tokens))` consumes the generator and the
second token is silently dropped). -/
theorem c3_counterexample : eval_prefix_expr_fwd "3 4" = .ok (.num 3) := by decide

/-- C3 (amended): prefix evaluation fails with `InvalidExpression` for missing
operands — any proper prefix of a cleanly-evaluating well-formed prefix
expression, e.g. `"+"` — and for trailing unconsumed numeric operands after a
complete expression, e.g. `" + 1 2 3"` (for a bare-number expression more than
one trailing operand is required); the exception forced by the counterexample
is a bare number followed by exactly one more token, which is accepted. -/
theorem c3_amended (t : PTree) (ht : t.WF) (v : ℚ) (hv : evalTreeFwd t = .ok v) :
    ∀ p : List Token,
      ((p <+: flatten t ∧ p ≠ flatten t) ∨
       (∃ extra, p = flatten t ++ extra ∧ extra ≠ [] ∧
          (∀ x ∈ extra, ∃ qq, x = Token.num qq) ∧
          ((∃ s l r, t = PTree.node s l r) ∨ 1 < extra.length))) →
      fwdGo (p.map Except.ok) [] [] = .error .invalidExpression := by
  intro p hp
  rcases hp with ⟨hpre, hne⟩ | ⟨extra, rfl, hex_ne, hex_num, hcase⟩
  · cases t with
    | leaf qq =>
      rw [flatten] at hpre hne
      rcases prefix_of_singleton hpre with rfl | rfl
      · exact finalizeFwd_len (by simp)
      · exact absurd rfl hne
    | node s l r =>
      obtain ⟨hs, hl, hr⟩ := ht
      cases p with
      | nil => exact finalizeFwd_len (by simp)
      | cons y p' =>
        have hpre0 := hpre
        rw [flatten, List.cons_prefix_cons] at hpre
        obtain ⟨rfl, -⟩ := hpre
        obtain ⟨st', δ, hrun, hsuf, hδ⟩ :=
          machineRun_proper_pref (PTree.node s l r) ⟨hs, hl, hr⟩ ⟨v, hv⟩
            (Token.op s :: p') ([], []) hpre0 hne
        rw [fwdGo_op_machine hs]
        rw [machineRun] at hrun
        have hstep : machineStep (.op s) (([] : List Token), ([] : List ℤ))
            = .ok ([Token.op s], [2]) := by
          simp [machineStep, hs, cascade_pos (by norm_num : (2:ℤ) ≠ 0)]
        simp only [hstep] at hrun
        simp only [hrun]
        apply finalizeFwd_cs_ne
        have hsd : st'.2 = δ := by simpa using hsuf
        rw [hsd]
        exact hδ (List.cons_ne_nil _ _)
  · cases t with
    | leaf qq =>
      rcases hcase with ⟨s, l, r, hteq⟩ | hlen
      · exact PTree.noConfusion hteq
      · rw [flatten, List.singleton_append, List.map_cons, fwdGo]
        simp only [List.isEmpty_nil, if_true, forceAll_map_ok]
        rw [if_pos hlen]
    | node s l r =>
      obtain ⟨hs, hl, hr⟩ := ht
      obtain ⟨f, hf⟩ := Option.isSome_iff_exists.mp hs
      obtain ⟨lv, rv, hlv, hrv⟩ := evalNode_ok hv
      have hflr : f lv rv = .ok v := by
        rw [evalTreeFwd] at hv
        simp only [hlv, hrv, hf] at hv
        exact hv
      rw [flatten, List.cons_append]
      rw [fwdGo_op_machine hs]
      rw [List.append_assoc]
      rw [machineRun_flatten l _ _ hl]
      have hstep2 : machineStep (.num lv) ([Token.op s], [2])
          = .ok ([.num lv, .op s], [1]) := by
        simp [machineStep, decTop, cascade_pos (by norm_num : (1:ℤ) ≠ 0)]
      simp only [hlv, hstep2]
      rw [machineRun_flatten r _ _ hr]
      have hstep3 : machineStep (.num rv) ([Token.num lv, Token.op s], [1])
          = .ok ([.num v], []) := by
        show cascade [Token.num rv, Token.num lv, Token.op s] (decTop [1]) = _
        rw [show decTop [1] = [0] from rfl, cascade_zero]
        rw [show reduce1 [Token.num rv, Token.num lv, Token.op s]
            = .ok [Token.num v] from by simp [reduce1, hf, hflr]]
        rfl
      simp only [hrv, hstep3]
      obtain ⟨ts', hrun, hlen'⟩ := machineRun_nums extra hex_num [Token.num v]
      simp only [hrun]
      apply finalizeFwd_len
      rw [hlen']
      have hnz : extra.length ≠ 0 := fun hh => hex_ne (List.length_eq_zero.mp hh)
      simp only [List.length_singleton]
      omega

/-- Witness for C3: `"+"` (missing operands, a proper prefix of `"+ 1 2"`) and
`" + 1 2 3"` (a complete expression followed by a trailing operand) both fail
with `InvalidExpression`. -/
theorem c3_amended_witness :
    fwdGo ([Token.op "+"].map Except.ok) [] [] = .error .invalidExpression ∧
    fwdGo ([Token.op "+", Token.num 1, Token.num 2, Token.num 3].map Except.ok) [] []
      = .error .invalidExpression ∧
    eval_prefix_expr_fwd "+" = .error .invalidExpression ∧
    eval_prefix_expr_fwd " + 1 2 3" = .error .invalidExpression := by
  have h2 : (PTree.node "+" (PTree.leaf 1) (PTree.leaf 2)).WF := ⟨rfl, trivial, trivial⟩
  have hv : evalTreeFwd (PTree.node "+" (PTree.leaf 1) (PTree.leaf 2)) = .ok 3 := by
    decide
  have ha := c3_amended _ h2 3 hv [Token.op "+"]
    (Or.inl ⟨by decide, by decide⟩)
  have hb := c3_amended _ h2 3 hv
    [Token.op "+", Token.num 1, Token.num 2, Token.num 3]
    (Or.inr ⟨[Token.num 3], by decide, by decide,
      fun x hx => ⟨3, by simpa using List.mem_singleton.mp hx⟩,
      Or.inl ⟨"+", PTree.leaf 1, PTree.leaf 2, rfl⟩⟩)
  exact ⟨ha, hb, by decide, by decide⟩

/-- C4: the tokenizer splits on runs of whitespace and classifies each word:
an exact operator-table match becomes that operator; otherwise an integer
parse is attempted first, then a float parse, in that order, returning the
first success; when both fail tokenization fails with `InvalidSymbol` naming
the offending word, and evaluation of e.g. `"$ 9 2"` surfaces exactly that
error. -/
theorem c4_tokenizer :
    (∀ expr : String, tokenizeL expr = (splitWords expr).map classify) ∧
    (∀ w : String, (OPCODES w).isSome = true → classify w = .ok (.op w)) ∧
    (∀ (w : String) (n : ℤ), OPCODES w = none → parseIntQ w = some n →
      classify w = .ok (.num (n : ℚ))) ∧
    (∀ (w : String) (q : ℚ), OPCODES w = none → parseIntQ w = none →
      parseFloatQ w = some q → classify w = .ok (.num q)) ∧
    (∀ w : String, OPCODES w = none → parseIntQ w = none → parseFloatQ w = none →
      classify w = .error (.invalidSymbol w)) ∧
    splitWords "  $   9 2" = ["$", "9", "2"] ∧
    eval_postfix_expr "$ 9 2" = .error (.invalidSymbol "$") ∧
    eval_prefix_expr_fwd "$ 9 2" = .error (.invalidSymbol "$") := by
  refine ⟨fun expr => rfl, ?_, ?_, ?_, ?_, by decide, by decide, by decide⟩
  · intro w h
    obtain ⟨f, hf⟩ := Option.isSome_iff_exists.mp h
    simp only [classify, hf]
  · intro w n h1 h2
    simp only [classify, h1, h2]
  · intro w q h1 h2 h3
    simp only [classify, h1, h2, h3]
  · intro w h1 h2 h3
    simp only [classify, h1, h2, h3]

/-- Witness for C4 on concrete words: an operator, an integer, a float, and an
invalid symbol. -/
theorem c4_tokenizer_witness :
    classify "+" = .ok (.op "+") ∧
    classify "3" = .ok (.num 3) ∧
    classify "4.1" = .ok (.num (mkRat 41 10)) ∧
    classify "$" = .error (.invalidSymbol "$") := by
  obtain ⟨-, h2, h3, h4, h5, -⟩ := c4_tokenizer
  refine ⟨h2 "+" (by decide), ?_, ?_, h5 "$" rfl (by decide) (by decide)⟩
  · have := h3 "3" 3 rfl (by decide)
    simpa using this
  · exact h4 "4.1" (mkRat 41 10) rfl (by decide) (by decide)

/-- C5: in postfix evaluation an operator pops the rhs first and the lhs
second (the deeper entry), applying `f lhs rhs`; with fewer than two stack
entries it fails with `InvalidExpression`; and when more than one value
remains after all tokens, the final check fails with `InvalidExpression`
(e.g. `"1 2 3 +"`). -/
theorem c5_postfix_stack_discipline :
    (∀ (rest : List (Except EvalErr Token)) (a b : ℚ) (st : List Token)
       (s : String) (f : ℚ → ℚ → Except EvalErr ℚ), OPCODES s = some f →
      rpnGo postfixSwap (.ok (.op s) :: rest) (.num a :: .num b :: st) =
        match f b a with
        | .error e => .error e
        | .ok v => rpnGo postfixSwap rest (.num v :: st)) ∧
    (∀ (rest : List (Except EvalErr Token)) (s : String),
      (OPCODES s).isSome = true →
      rpnGo postfixSwap (.ok (.op s) :: rest) [] = .error .invalidExpression ∧
      ∀ x : Token,
        rpnGo postfixSwap (.ok (.op s) :: rest) [x] = .error .invalidExpression) ∧
    (∀ (toks : List (Except EvalErr Token)) (st : List Token),
      rpnGo postfixSwap toks [] = .ok st → 1 < st.length →
      rpnFinish (rpnGo postfixSwap toks []) = .error .invalidExpression) ∧
    eval_postfix_expr "1 2 3 +" = .error .invalidExpression := by
  refine ⟨?_, ?_, ?_, by decide⟩
  · intro rest a b st s f hf
    have hs : (OPCODES s).isSome = true := by simp [hf]
    rw [rpnGo]
    simp only [hs, if_true, hf, applyNum, postfixSwap]
    cases hfb : f b a
    · simp [hfb]
    · simp [hfb]
  · intro rest s hs
    constructor
    · rw [rpnGo]
      · simp only [hs, if_true]
      · intro a b st' hco
        exact List.noConfusion hco
    · intro x
      rw [rpnGo]
      · simp only [hs, if_true]
      · intro a b st' hco
        simp at hco
  · intro toks st h hlen
    rw [h]
    cases st with
    | nil => simp at hlen
    | cons a tl =>
      cases tl with
      | nil => simp at hlen
      | cons b tl2 => rfl

/-- Witness for C5: `"10 4 -"`-style application (lhs is the deeper entry:
`10 - 4 = 6`, not `4 - 10`), underflow on a one-entry stack, and the leftover
check on `"1 2 3 +"`. -/
theorem c5_postfix_stack_discipline_witness :
    rpnGo postfixSwap [Except.ok (Token.op "-")] [Token.num 4, Token.num 10]
      = .ok [Token.num 6] ∧
    rpnGo postfixSwap [Except.ok (Token.op "-")] [Token.num 4]
      = .error .invalidExpression ∧
    eval_postfix_expr "1 2 3 +" = .error .invalidExpression := by
  obtain ⟨h1, h2, h3, h4⟩ := c5_postfix_stack_discipline
  refine ⟨?_, ?_, h4⟩
  · have := h1 [] 4 10 [] "-" opSub rfl
    rw [this]
    decide
  · exact (h2 [] "-" (by decide)).2 (Token.num 4)

/-- C6: `/`, `//` and `%` with a zero right-hand operand fail with
`DivisionByZero` — the operator-table entries themselves reject a zero rhs,
and whole-expression evaluation surfaces exactly that error (never a crash or
an infinite value), e.g. on `"102 0 /"`. -/
theorem c6_division_by_zero :
    (∀ a : ℚ, opDiv a 0 = .error .divisionByZero) ∧
    (∀ a : ℚ, opFloorDiv a 0 = .error .divisionByZero) ∧
    (∀ a : ℚ, opMod a 0 = .error .divisionByZero) ∧
    OPCODES "/" = some opDiv ∧
    OPCODES "//" = some opFloorDiv ∧
    OPCODES "%" = some opMod ∧
    eval_postfix_expr "102 0 /" = .error .divisionByZero ∧
    eval_prefix_expr_fwd "/ 102 0" = .error .divisionByZero ∧
    eval_prefix_expr_fwd "% 7 0" = .error .divisionByZero ∧
    eval_postfix_expr "7 0 //" = .error .divisionByZero := by
  refine ⟨fun a => by simp [opDiv], fun a => by simp [opFloorDiv],
    fun a => by simp [opMod], rfl, rfl, rfl,
    by decide, by decide, by decide, by decide⟩

/-- C7 (code bug in the source): the worked examples hold for the postfix
evaluator, the forward-scan prefix evaluator, and the reversal strategy as
intended, with `6.25 = 25/4`; but the prefix evaluator actually provided by
`eval_rpn.py` crashes on every input — `reversed()` applied to the
`_tokenize_expr` generator raises `TypeError` — so for it the examples fail. -/
theorem c7_worked_examples :
    eval_postfix_expr "3 4 +" = .ok (.num 7) ∧
    eval_prefix_expr_fwd "+ 3 4" = .ok (.num 7) ∧
    eval_prefix_expr_rpn_intended "+ 3 4" = .ok (.num 7) ∧
    eval_postfix_expr "10 5 * 6 2 + /" = .ok (.num (mkRat 25 4)) ∧
    eval_prefix_expr_fwd "/ * 10 5 + 6 2" = .ok (.num (mkRat 25 4)) ∧
    eval_prefix_expr_rpn_intended "/ * 10 5 + 6 2" = .ok (.num (mkRat 25 4)) ∧
    (mkRat 25 4 : ℚ) = 25 / 4 ∧
    eval_postfix_expr "10 7 2 3 * + -" = .ok (.num (-3)) ∧
    eval_prefix_expr_fwd "- 10 + 7 * 2 3" = .ok (.num (-3)) ∧
    eval_prefix_expr_rpn_intended "- 10 + 7 * 2 3" = .ok (.num (-3)) ∧
    eval_prefix_expr_rpn "+ 3 4" = .error .uncaught := by
  refine ⟨by decide, by decide, by decide, by decide, by decide, by decide,
    ?_, by decide, by decide, by decide, by decide⟩
  rw [Rat.mkRat_eq_div]
  norm_num

/-- C8: the count-stack discipline of the forward scan — a zero top count is
eagerly popped, the completed subexpression reduced (operator below the two
operands, lhs deeper than rhs, result pushed) and the new top decremented,
cascading; every count-stack entry stays in `{0,1,2}`: between tokens all
entries are `1` or `2`, and inside the cascade only the top can transiently
be `0`. -/
theorem c8_count_stack_invariant :
    (∀ (ts : List Token) (cs : List ℤ),
      cascade ts (0 :: cs) =
        match reduce1 ts with
        | .error e => .error e
        | .ok ts' => cascade ts' (decTop cs)) ∧
    (∀ (a b : ℚ) (s : String) (f : ℚ → ℚ → Except EvalErr ℚ)
       (rest : List Token), OPCODES s = some f →
      reduce1 (.num b :: .num a :: .op s :: rest) =
        match f a b with
        | .error e => .error e
        | .ok v => .ok (.num v :: rest)) ∧
    (∀ (toks : List Token) (st st' : List Token × List ℤ),
      (∀ c ∈ st.2, c = 1 ∨ c = 2) → machineRun toks st = .ok st' →
      ∀ c ∈ st'.2, c = 1 ∨ c = 2) ∧
    (∀ (ts : List Token) (c : ℤ) (cs : List ℤ) (ts' : List Token)
       (cs' : List ℤ),
      (c = 0 ∨ c = 1 ∨ c = 2) → (∀ x ∈ cs, x = 1 ∨ x = 2) →
      cascade ts (c :: cs) = .ok (ts', cs') → ∀ x ∈ cs', x = 1 ∨ x = 2) := by
  refine ⟨cascade_zero, ?_, machineRun_inv, ?_⟩
  · intro a b s f rest hf
    simp [reduce1, hf]
  · intro ts c cs ts' cs' hc hcs h
    exact cascadeAux_inv cs ts c hc hcs h

/-- Witness for C8: a concrete reduction and a concrete run preserving the
invariant. -/
theorem c8_count_stack_invariant_witness :
    reduce1 [Token.num 4, Token.num 3, Token.op "+"] = .ok [Token.num 7] ∧
    machineRun [Token.op "+", Token.num 1, Token.num 2] ([], [])
      = .ok ([Token.num 3], []) ∧
    (∀ c ∈ ([] : List ℤ), c = 1 ∨ c = 2) := by
  obtain ⟨h1, h2, h3, h4⟩ := c8_count_stack_invariant
  have hrun : machineRun [Token.op "+", Token.num 1, Token.num 2] ([], [])
      = .ok ([Token.num 3], []) := by decide
  have hred := h2 3 4 "+" opAdd [] rfl
  refine ⟨?_, hrun, ?_⟩
  · rw [hred]
    decide
  · exact h3 _ _ _ (fun c hc => absurd hc (List.not_mem_nil c)) hrun

/-- C9: the leading-operand check of the forward scan measures (and consumes)
the remaining token stream: a leading number followed by more than one further
token is rejected with `InvalidExpression`, but a leading number followed by
exactly one further token — e.g. the two bare numbers `"3 4"` — is accepted
and evaluates to the first number, so the heuristic does not reject all
malformed inputs. -/
theorem c9_leading_operand_heuristic :
    (∀ (q : ℚ) (rest : List (Except EvalErr Token)) (l : List Token),
      forceAll rest = .ok l → 1 < l.length →
      fwdGo (.ok (.num q) :: rest) [] [] = .error .invalidExpression) ∧
    (∀ (q : ℚ) (t : Token), fwdGo [.ok (.num q), .ok t] [] [] = .ok (.num q)) ∧
    eval_prefix_expr_fwd "3 4" = .ok (.num 3) ∧
    eval_prefix_expr_fwd "1038 - // * 10 5 + 7 3 2" = .error .invalidExpression := by
  refine ⟨?_, ?_, by decide, by decide⟩
  · intro q rest l h1 h2
    rw [fwdGo]
    simp only [List.isEmpty_nil, if_true, h1]
    rw [if_pos h2]
  · intro q t
    rw [fwdGo]
    rw [show forceAll [Except.ok t] = .ok [t] from by simp [forceAll]]
    simp [cascade, decTop, finalizeFwd]

/-- Witness for C9: three tokens after a leading number are rejected; a single
trailing token after a leading number is silently dropped. -/
theorem c9_leading_operand_heuristic_witness :
    fwdGo [Except.ok (Token.num 3), Except.ok (Token.num 4),
      Except.ok (Token.num 5)] [] [] = .error .invalidExpression ∧
    fwdGo [Except.ok (Token.num 3), Except.ok (Token.op "+")] [] []
      = .ok (.num 3) := by
  obtain ⟨h1, h2, -, -⟩ := c9_leading_operand_heuristic
  exact ⟨h1 3 _ [Token.num 4, Token.num 5] (by decide) (by decide),
    h2 3 (Token.op "+")⟩

/-- C10: every operator token the tokenizer hands to an evaluator is a key of
the operator table, so neither evaluator can ever surface the defensive
`UnknownOperator` error on any input string. -/
theorem c10_no_unknown_operator (expr : String) :
    (∀ s : String, Except.ok (Token.op s) ∈ tokenizeL expr →
      (OPCODES s).isSome = true) ∧
    eval_postfix_expr expr ≠ .error .unknownOperator ∧
    eval_prefix_expr_fwd expr ≠ .error .unknownOperator := by
  refine ⟨?_, ?_, ?_⟩
  · intro s hmem
    exact tokenizeL_good expr _ hmem
  · exact rpnFinish_no_unknown
      (rpnGo_no_unknown postfixSwap (tokenizeL expr) [] (tokenizeL_good expr))
  · exact fwdGo_no_unknown (tokenizeL expr) [] [] (tokenizeL_good expr)

/-- Witness for C10 on concrete inputs. -/
theorem c10_no_unknown_operator_witness :
    (OPCODES "+").isSome = true ∧
    eval_postfix_expr "3 4 +" ≠ .error .unknownOperator ∧
    eval_prefix_expr_fwd "+ 3 4" ≠ .error .unknownOperator := by
  obtain ⟨h1, h2, -⟩ := c10_no_unknown_operator "3 4 +"
  obtain ⟨-, -, h3⟩ := c10_no_unknown_operator "+ 3 4"
  exact ⟨h1 "+" (by decide), h2, h3⟩

end RpnEval
